import Mathlib

/-!
Verification development for the HPC Monte Carlo option pricer (`src/main.cpp`).

The two core components are modelled over exact real arithmetic:

* `calculate_historical_volatility` — Hull's historical-volatility estimator
  (`main.cpp`, lines 57–70);
* `monte_carlo_pricer` — the Monte Carlo engine (`main.cpp`, lines 73–108).
  The standard-normal draws produced by each worker's `std::mt19937` +
  `std::normal_distribution` are abstracted as an explicit sequence
  `Z : ℕ → ℝ` of draws, indexed by trial number; all arithmetic on `double`
  is modelled as exact real arithmetic.  Division by zero in the model
  follows Lean's convention `x / 0 = 0` (the C++ code produces NaN there);
  theorems touching that case expose the zero divisor explicitly.

The per-worker seeding expression
`(unsigned int)(system_clock::now().time_since_epoch().count() + thread_num)`
(`main.cpp`, line 84) is modelled by `worker_seed`, and the C++ `int` type of
the engine's sample-count parameter `N` (`main.cpp`, line 73) by
`sample_count_representable` (32-bit signed `int` on the target platform).
-/

/-- Result record returned by the engine (`struct SimulationResult`). -/
structure SimulationResult where
  price : ℝ
  std_error : ℝ
  avg_final_price : ℝ

/-- Consecutive log-returns `u_i = log(prices[i] / prices[i-1])`, built exactly
as the loop `for i in 1..size-1` of `calculate_historical_volatility`. -/
noncomputable def log_returns (prices : List ℝ) : List ℝ :=
  List.zipWith (fun prev cur => Real.log (cur / prev)) prices prices.tail

/-- Model of `calculate_historical_volatility` (`main.cpp`, lines 57–70):
fallback 0.20 for fewer than two prices, otherwise
`sqrt(sq_sum / (count − 1)) * sqrt(252)` with `count − 1` the C++ `size_t`
(truncated) subtraction `log_returns.size() - 1`. -/
noncomputable def calculate_historical_volatility (prices : List ℝ) : ℝ :=
  if prices.length < 2 then 0.20
  else
    let lr := log_returns prices
    let mean := lr.sum / (lr.length : ℝ)
    let sq_sum := (lr.map (fun u => (u - mean) * (u - mean))).sum
    Real.sqrt (sq_sum / ((lr.length - 1 : ℕ) : ℝ)) * Real.sqrt 252

/-- Drift term `(r - 0.5 * sigma * sigma) * T` (`main.cpp`, line 78). -/
noncomputable def drift (r sigma T : ℝ) : ℝ := (r - 0.5 * sigma * sigma) * T

/-- Diffusion coefficient `sigma * sqrt(T)` (`main.cpp`, line 79). -/
noncomputable def vol_sqrt_T (sigma T : ℝ) : ℝ := sigma * Real.sqrt T

/-- Terminal price of one trial, `S_T = S0 * exp(drift + vol_sqrt_T * Z)`
(`main.cpp`, line 92). -/
noncomputable def terminal_price (S0 r sigma T z : ℝ) : ℝ :=
  S0 * Real.exp (drift r sigma T + vol_sqrt_T sigma T * z)

/-- Call payoff `max(S_T - K, 0.0)` (`main.cpp`, line 95). -/
noncomputable def call_payoff (K sT : ℝ) : ℝ := max (sT - K) 0

/-- Per-worker accumulator: the three reduction variables
`sum_payoffs`, `sum_sq_payoffs`, `sum_ST` (`main.cpp`, lines 74–76). -/
structure Accumulator where
  sum_payoffs : ℝ
  sum_sq_payoffs : ℝ
  sum_ST : ℝ

/-- The all-zero initial accumulator. -/
noncomputable def Accumulator.zero : Accumulator := ⟨0, 0, 0⟩

/-- Componentwise addition: how OpenMP's `reduction(+: …)` clause combines the
per-worker copies of the three accumulators into the global totals. -/
noncomputable def Accumulator.add (a b : Accumulator) : Accumulator :=
  ⟨a.sum_payoffs + b.sum_payoffs, a.sum_sq_payoffs + b.sum_sq_payoffs,
   a.sum_ST + b.sum_ST⟩

/-- One loop iteration of the sampling loop (`main.cpp`, lines 89–100):
draw `z`, form `S_T` and the payoff, and add `payoff`, `payoff * payoff`
and `S_T` to the worker's accumulator. -/
noncomputable def accum_trial (S0 K r sigma T : ℝ) (acc : Accumulator) (z : ℝ) :
    Accumulator :=
  let sT := terminal_price S0 r sigma T z
  let p := call_payoff K sT
  ⟨acc.sum_payoffs + p, acc.sum_sq_payoffs + p * p, acc.sum_ST + sT⟩

/-- Run the sampling loop over a list of normal draws, starting from the
all-zero accumulator. -/
noncomputable def run_trials_on (S0 K r sigma T : ℝ) (zs : List ℝ) : Accumulator :=
  zs.foldl (accum_trial S0 K r sigma T) Accumulator.zero

/-- Model of `monte_carlo_pricer` (`main.cpp`, lines 73–108) on the draw
sequence `Z`: run `N` trials, then the sequential statistics stage
(lines 103–107). -/
noncomputable def monte_carlo_pricer (S0 K r sigma T : ℝ) (N : ℕ) (Z : ℕ → ℝ) :
    SimulationResult :=
  let acc := run_trials_on S0 K r sigma T ((List.range N).map Z)
  let mean_payoff := acc.sum_payoffs / (N : ℝ)
  let variance := acc.sum_sq_payoffs / (N : ℝ) - mean_payoff * mean_payoff
  let discount_factor := Real.exp (-r * T)
  let std_error := (Real.sqrt variance / Real.sqrt (N : ℝ)) * discount_factor
  ⟨mean_payoff * discount_factor, std_error, acc.sum_ST / (N : ℝ)⟩

/-- The seed expression of `main.cpp`, line 84: the clock reading `t`
(`system_clock::now().time_since_epoch().count()`, taken separately by each
worker inside the parallel region) plus the worker index `w`
(`omp_get_thread_num()`), truncated to `unsigned int` (32 bits). -/
def worker_seed (t w : ℕ) : ℕ := (t + w) % 2 ^ 32

/-- Largest value of the C++ `int` type of the engine's parameter `N`
(32-bit signed `int` on the target platform). -/
def INT_MAX : ℤ := 2 ^ 31 - 1

/-- A sample count is representable by the engine's `int N` parameter
(`main.cpp`, line 73) iff it fits a 32-bit signed integer. -/
def sample_count_representable (n : ℤ) : Prop := -(2 ^ 31) ≤ n ∧ n ≤ INT_MAX

/-! ### Helper lemmas about the accumulator algebra -/

theorem Accumulator.zero_add (a : Accumulator) : Accumulator.zero.add a = a := by
  cases a; simp [Accumulator.add, Accumulator.zero]

theorem Accumulator.add_zero (a : Accumulator) : a.add Accumulator.zero = a := by
  cases a; simp [Accumulator.add, Accumulator.zero]

theorem Accumulator.add_assoc (a b c : Accumulator) :
    (a.add b).add c = a.add (b.add c) := by
  cases a; cases b; cases c
  simp only [Accumulator.add, Accumulator.mk.injEq]
  refine ⟨?_, ?_, ?_⟩ <;> ring

theorem accum_trial_eq_add (S0 K r sigma T : ℝ) (a : Accumulator) (z : ℝ) :
    accum_trial S0 K r sigma T a z =
      a.add (accum_trial S0 K r sigma T Accumulator.zero z) := by
  cases a; simp [accum_trial, Accumulator.add, Accumulator.zero]

theorem foldl_accum_eq_add (S0 K r sigma T : ℝ) (zs : List ℝ) (a : Accumulator) :
    zs.foldl (accum_trial S0 K r sigma T) a =
      a.add (run_trials_on S0 K r sigma T zs) := by
  induction zs generalizing a with
  | nil => simp [run_trials_on, Accumulator.add_zero]
  | cons z zs ih =>
      simp only [List.foldl_cons, run_trials_on]
      rw [ih, ih (accum_trial S0 K r sigma T Accumulator.zero z),
        accum_trial_eq_add, Accumulator.add_assoc]

theorem run_trials_on_cons (S0 K r sigma T : ℝ) (z : ℝ) (zs : List ℝ) :
    run_trials_on S0 K r sigma T (z :: zs) =
      (accum_trial S0 K r sigma T Accumulator.zero z).add
        (run_trials_on S0 K r sigma T zs) := by
  simp only [run_trials_on, List.foldl_cons]
  rw [foldl_accum_eq_add, accum_trial_eq_add, Accumulator.zero_add]
  rfl

theorem run_trials_on_append (S0 K r sigma T : ℝ) (xs ys : List ℝ) :
    run_trials_on S0 K r sigma T (xs ++ ys) =
      (run_trials_on S0 K r sigma T xs).add (run_trials_on S0 K r sigma T ys) := by
  simp only [run_trials_on, List.foldl_append]
  rw [foldl_accum_eq_add]
  rfl

theorem foldl_add_eq (l : List Accumulator) (a : Accumulator) :
    l.foldl Accumulator.add a = a.add (l.foldl Accumulator.add Accumulator.zero) := by
  induction l generalizing a with
  | nil => simp [Accumulator.add_zero]
  | cons b l ih =>
      simp only [List.foldl_cons]
      rw [ih, ih (Accumulator.zero.add b), Accumulator.zero_add,
        Accumulator.add_assoc]

theorem run_trials_on_join (S0 K r sigma T : ℝ) (chunks : List (List ℝ)) :
    run_trials_on S0 K r sigma T chunks.flatten =
      (chunks.map (run_trials_on S0 K r sigma T)).foldl
        Accumulator.add Accumulator.zero := by
  induction chunks with
  | nil => rfl
  | cons c cs ih =>
      have h1 : (c :: cs).flatten = c ++ cs.flatten := rfl
      rw [h1, run_trials_on_append, ih, List.map_cons, List.foldl_cons,
        foldl_add_eq (List.map (run_trials_on S0 K r sigma T) cs)
          (Accumulator.zero.add (run_trials_on S0 K r sigma T c)),
        Accumulator.zero_add]

theorem run_trials_closed (S0 K r sigma T : ℝ) (zs : List ℝ) :
    run_trials_on S0 K r sigma T zs =
      { sum_payoffs :=
          (zs.map (fun z => call_payoff K (terminal_price S0 r sigma T z))).sum,
        sum_sq_payoffs :=
          (zs.map (fun z =>
            call_payoff K (terminal_price S0 r sigma T z) *
              call_payoff K (terminal_price S0 r sigma T z))).sum,
        sum_ST := (zs.map (terminal_price S0 r sigma T)).sum } := by
  induction zs with
  | nil => rfl
  | cons z zs ih =>
      rw [run_trials_on_cons, ih]
      simp [accum_trial, Accumulator.add, Accumulator.zero, add_comm]

theorem sum_map_range (f : ℕ → ℝ) (n : ℕ) :
    ((List.range n).map f).sum = ∑ i ∈ Finset.range n, f i := by
  induction n with
  | zero => rfl
  | succ n ih =>
      rw [List.range_succ, List.map_append, List.sum_append,
        Finset.sum_range_succ, ih]
      simp

/-! ### Spec-side formulation of the volatility estimator (for the refinement
claim): the formula of spec.md §4.1, written with explicit indices. -/

/-- Spec formula for the log-return of the consecutive pair at index `i`
(0-based): `u_i = ln(P_{i+1} / P_i)`. -/
noncomputable def spec_log_return (prices : List ℝ) (i : ℕ) : ℝ :=
  Real.log (prices.getD (i + 1) 0 / prices.getD i 0)

/-- Spec formula for annualized historical volatility on `n ≥ 2` prices:
`sqrt( Σ (u_i − μ)² / (m − 1) ) · sqrt 252` over the `m = n − 1` log-returns
with sample mean `μ`. -/
noncomputable def spec_volatility (prices : List ℝ) : ℝ :=
  let m := prices.length - 1
  let mu := (∑ i ∈ Finset.range m, spec_log_return prices i) / (m : ℝ)
  Real.sqrt
      ((∑ i ∈ Finset.range m, (spec_log_return prices i - mu) ^ 2) /
        ((m - 1 : ℕ) : ℝ)) *
    Real.sqrt 252

theorem log_returns_eq_map_range (prices : List ℝ) :
    log_returns prices =
      (List.range (prices.length - 1)).map (spec_log_return prices) := by
  induction prices with
  | nil => rfl
  | cons p rest ih =>
      cases rest with
      | nil => rfl
      | cons q t =>
          have hlr : log_returns (p :: q :: t) =
              Real.log (q / p) :: log_returns (q :: t) := rfl
          have hlen : (p :: q :: t).length - 1 = ((q :: t).length - 1) + 1 := by
            simp
          rw [hlr, ih, hlen, List.range_succ_eq_map, List.map_cons, List.map_map]
          have hhead : Real.log (q / p) = spec_log_return (p :: q :: t) 0 := by
            simp [spec_log_return]
          have htail :
              (List.range ((q :: t).length - 1)).map (spec_log_return (q :: t)) =
                (List.range ((q :: t).length - 1)).map
                  (spec_log_return (p :: q :: t) ∘ Nat.succ) := by
            refine List.map_congr_left fun i _ => ?_
            simp [spec_log_return, Function.comp]
          rw [hhead, htail]

/-- C5: on a price sequence with fewer than 2 elements,
`calculate_historical_volatility` returns the fixed fallback value 0.20 and
does not fail. -/
theorem volatility_fallback_under_two_points (prices : List ℝ)
    (h : prices.length < 2) :
    calculate_historical_volatility prices = 0.20 := by
  simp only [calculate_historical_volatility, if_pos h]

/-- Witness for C5 at the empty sequence. -/
theorem volatility_fallback_under_two_points_witness :
    ([] : List ℝ).length < 2 ∧ calculate_historical_volatility [] = 0.20 :=
  ⟨by decide, volatility_fallback_under_two_points [] (by decide)⟩

/-- C4 (code behavior at the failing input): on exactly the two equal prices
`[100, 100]` there is a single log-return, so the Bessel divisor
`log_returns.size() - 1` is 0 and the source divides `0.0` by `0` with no
guard (IEEE `0.0 / 0.0 = NaN`; in this exact-arithmetic model the Lean
convention `0 / 0 = 0` makes the value 0).  The conjunction records both the
zero divisor and the model value. -/
theorem volatility_two_equal_prices_divisor_zero :
    (log_returns [(100 : ℝ), 100]).length - 1 = 0 ∧
      calculate_historical_volatility [(100 : ℝ), 100] = 0 := by
  constructor
  · rfl
  · have h100 : (100 : ℝ) / 100 = 1 := by norm_num
    simp [calculate_historical_volatility, log_returns, h100, Real.log_one]

/-- C1: every iteration of the sampling loop computes
`S_T = S0 · exp((r − 0.5σ²)T + σ√T·Z)`, the call payoff `max(S_T − K, 0)`,
and adds exactly `payoff`, `payoff²` and `S_T` to the worker's accumulator;
trial `N` of a run extends the accumulator of the first `N` trials this way. -/
theorem trial_sampling_matches_spec (S0 K r sigma T z : ℝ) (N : ℕ) (Z : ℕ → ℝ)
    (acc : Accumulator) :
    run_trials_on S0 K r sigma T ((List.range (N + 1)).map Z) =
      accum_trial S0 K r sigma T
        (run_trials_on S0 K r sigma T ((List.range N).map Z)) (Z N) ∧
    accum_trial S0 K r sigma T acc z =
      { sum_payoffs := acc.sum_payoffs +
          max (S0 * Real.exp ((r - 0.5 * sigma ^ 2) * T + sigma * Real.sqrt T * z)
              - K) 0,
        sum_sq_payoffs := acc.sum_sq_payoffs +
          max (S0 * Real.exp ((r - 0.5 * sigma ^ 2) * T + sigma * Real.sqrt T * z)
              - K) 0 *
            max (S0 * Real.exp ((r - 0.5 * sigma ^ 2) * T + sigma * Real.sqrt T * z)
              - K) 0,
        sum_ST := acc.sum_ST +
          S0 * Real.exp ((r - 0.5 * sigma ^ 2) * T + sigma * Real.sqrt T * z) } := by
  constructor
  · rw [List.range_succ, List.map_append, run_trials_on_append,
      accum_trial_eq_add]
    rfl
  · have harg : (r - 0.5 * sigma ^ 2) * T + sigma * Real.sqrt T * z =
        drift r sigma T + vol_sqrt_T sigma T * z := by
      simp only [drift, vol_sqrt_T]; ring
    rw [harg]
    rfl

/-- C3 (code behavior at the failing input): the engine performs no parameter
validation; invoked with `sampleCount = 0` it runs zero trials and proceeds
to the statistics stage, which divides the all-zero totals by `N = 0`
(IEEE `0.0 / 0.0 = NaN` in the C++ code; 0 under this model's division
convention), instead of rejecting the run. -/
theorem engine_runs_at_zero_sample_count :
    monte_carlo_pricer 100 100 (5 / 100) (2 / 10) 1 0 (fun _ => 0) =
      { price := 0, std_error := 0, avg_final_price := 0 } := by
  simp [monte_carlo_pricer, run_trials_on, Accumulator.zero]

/-- C6: on `n ≥ 2` strictly positive prices, the estimator computes exactly
the spec's formula `sqrt( Σ (u_i − μ)² / (m − 1) ) · sqrt 252` over the
`m = n − 1` consecutive log-returns `u_i = ln(P_i / P_{i−1})` with sample
mean `μ` (Bessel-corrected sample variance, annualized by `sqrt 252`). -/
theorem volatility_matches_spec_formula (prices : List ℝ)
    (hlen : 2 ≤ prices.length) (hpos : ∀ p ∈ prices, 0 < p) :
    calculate_historical_volatility prices = spec_volatility prices := by
  have hm : ¬ prices.length < 2 := Nat.not_lt.mpr hlen
  simp only [calculate_historical_volatility, spec_volatility, if_neg hm,
    log_returns_eq_map_range prices, List.length_map, List.length_range,
    List.map_map, sum_map_range, Function.comp]
  simp only [← pow_two]

/-- Witness for C6 at the two positive prices 1, 2. -/
theorem volatility_matches_spec_formula_witness :
    2 ≤ ([(1 : ℝ), 2]).length ∧ (∀ p ∈ [(1 : ℝ), 2], 0 < p) ∧
      calculate_historical_volatility [(1 : ℝ), 2] = spec_volatility [(1 : ℝ), 2] :=
  ⟨by decide, by norm_num,
    volatility_matches_spec_formula [(1 : ℝ), 2] (by decide) (by norm_num)⟩

/-- C2: the global totals are the componentwise sum of the per-worker
accumulators (for any partition of the run's draws into worker chunks), and
the returned record is `price = (ΣP/N)·exp(−rT)`,
`standardError = sqrt(ΣP²/N − (ΣP/N)²)/sqrt N · exp(−rT)` (plug-in
variance), `averageTerminalPrice = ΣS_T/N`, for every `N > 0`. -/
theorem reduction_matches_spec (S0 K r sigma T : ℝ) (N : ℕ) (Z : ℕ → ℝ)
    (chunks : List (List ℝ)) (hN : 0 < N)
    (hpart : chunks.flatten = (List.range N).map Z) :
    (chunks.map (run_trials_on S0 K r sigma T)).foldl Accumulator.add
        Accumulator.zero =
      run_trials_on S0 K r sigma T ((List.range N).map Z) ∧
    monte_carlo_pricer S0 K r sigma T N Z =
      { price :=
          (run_trials_on S0 K r sigma T ((List.range N).map Z)).sum_payoffs /
              (N : ℝ) * Real.exp (-r * T),
        std_error :=
          Real.sqrt
              ((run_trials_on S0 K r sigma T ((List.range N).map Z)).sum_sq_payoffs /
                  (N : ℝ) -
                (run_trials_on S0 K r sigma T ((List.range N).map Z)).sum_payoffs /
                    (N : ℝ) *
              ((run_trials_on S0 K r sigma T ((List.range N).map Z)).sum_payoffs /
                    (N : ℝ))) /
            Real.sqrt (N : ℝ) * Real.exp (-r * T),
        avg_final_price :=
          (run_trials_on S0 K r sigma T ((List.range N).map Z)).sum_ST / (N : ℝ) } := by
  constructor
  · rw [← hpart, run_trials_on_join]
  · rfl

/-- Witness for C2: one trial, one worker chunk. -/
theorem reduction_matches_spec_witness :
    0 < 1 ∧ ([[(0 : ℝ)]] : List (List ℝ)).flatten =
        (List.range 1).map (fun _ => (0 : ℝ)) ∧
      ((([[(0 : ℝ)]] : List (List ℝ)).map (run_trials_on 1 1 0 0 1)).foldl
          Accumulator.add Accumulator.zero =
        run_trials_on 1 1 0 0 1 ((List.range 1).map (fun _ => (0 : ℝ))) ∧
      monte_carlo_pricer 1 1 0 0 1 1 (fun _ => (0 : ℝ)) =
        { price :=
            (run_trials_on 1 1 0 0 1 ((List.range 1).map (fun _ => (0 : ℝ)))).sum_payoffs /
                ((1 : ℕ) : ℝ) * Real.exp (-0 * 1),
          std_error :=
            Real.sqrt
                ((run_trials_on 1 1 0 0 1 ((List.range 1).map (fun _ => (0 : ℝ)))).sum_sq_payoffs /
                    ((1 : ℕ) : ℝ) -
                  (run_trials_on 1 1 0 0 1 ((List.range 1).map (fun _ => (0 : ℝ)))).sum_payoffs /
                      ((1 : ℕ) : ℝ) *
                ((run_trials_on 1 1 0 0 1 ((List.range 1).map (fun _ => (0 : ℝ)))).sum_payoffs /
                      ((1 : ℕ) : ℝ))) /
              Real.sqrt ((1 : ℕ) : ℝ) * Real.exp (-0 * 1),
          avg_final_price :=
            (run_trials_on 1 1 0 0 1 ((List.range 1).map (fun _ => (0 : ℝ)))).sum_ST /
              ((1 : ℕ) : ℝ) }) :=
  ⟨by decide, by rfl,
    reduction_matches_spec 1 1 0 0 1 1 (fun _ => (0 : ℝ)) [[(0 : ℝ)]]
      (by decide) (by rfl)⟩

/-- C7: with `volatility = 0` the diffusion term vanishes: every trial yields
the deterministic terminal price `S0 · exp(r·T)`, and for any `N > 0` the
returned `averageTerminalPrice` equals `S0 · exp(r·T)` exactly, via the
normal formula path. -/
theorem zero_volatility_avg_terminal (S0 K r T : ℝ) (N : ℕ) (Z : ℕ → ℝ)
    (hS0 : 0 < S0) (hT : 0 < T) (hN : 0 < N) :
    (∀ z, terminal_price S0 r 0 T z = S0 * Real.exp (r * T)) ∧
      (monte_carlo_pricer S0 K r 0 T N Z).avg_final_price =
        S0 * Real.exp (r * T) := by
  have htp : ∀ z, terminal_price S0 r 0 T z = S0 * Real.exp (r * T) := by
    intro z
    simp [terminal_price, drift, vol_sqrt_T]
  refine ⟨htp, ?_⟩
  have h1 : (monte_carlo_pricer S0 K r 0 T N Z).avg_final_price =
      (run_trials_on S0 K r 0 T ((List.range N).map Z)).sum_ST / (N : ℝ) := rfl
  have hST : (run_trials_on S0 K r 0 T ((List.range N).map Z)).sum_ST =
      (N : ℝ) * (S0 * Real.exp (r * T)) := by
    rw [run_trials_closed]
    show (((List.range N).map Z).map (terminal_price S0 r 0 T)).sum = _
    rw [List.map_map, sum_map_range]
    calc ∑ i ∈ Finset.range N, (terminal_price S0 r 0 T ∘ Z) i
        = ∑ _i ∈ Finset.range N, S0 * Real.exp (r * T) :=
          Finset.sum_congr rfl fun i _ => htp (Z i)
      _ = (N : ℝ) * (S0 * Real.exp (r * T)) := by
          rw [Finset.sum_const, Finset.card_range, nsmul_eq_mul]
  rw [h1, hST, mul_div_cancel_left₀ _ (Nat.cast_ne_zero.mpr hN.ne')]

/-- Witness for C7 with spot 1, rate 0, maturity 1, a single trial. -/
theorem zero_volatility_avg_terminal_witness :
    (0 : ℝ) < 1 ∧ (0 : ℝ) < 1 ∧ 0 < 1 ∧
      ((∀ z, terminal_price 1 0 0 1 z = 1 * Real.exp (0 * 1)) ∧
        (monte_carlo_pricer 1 1 0 0 1 1 (fun _ => 37)).avg_final_price =
          1 * Real.exp (0 * 1)) :=
  ⟨by norm_num, by norm_num, by decide,
    zero_volatility_avg_terminal 1 1 0 1 1 (fun _ => 37)
      (by norm_num) (by norm_num) (by decide)⟩

/-- C10: for every run with `N > 0` trials, the plug-in variance
`ΣP²/N − (ΣP/N)²` formed in the statistics stage is nonnegative in exact
arithmetic, so the square root in `standardError` is applied to a
nonnegative argument and the returned `standardError` is nonnegative. -/
theorem plug_in_variance_nonneg (S0 K r sigma T : ℝ) (N : ℕ) (Z : ℕ → ℝ)
    (hN : 0 < N) :
    0 ≤ (run_trials_on S0 K r sigma T ((List.range N).map Z)).sum_sq_payoffs /
          (N : ℝ) -
        (run_trials_on S0 K r sigma T ((List.range N).map Z)).sum_payoffs /
            (N : ℝ) *
          ((run_trials_on S0 K r sigma T ((List.range N).map Z)).sum_payoffs /
            (N : ℝ)) ∧
      0 ≤ (monte_carlo_pricer S0 K r sigma T N Z).std_error := by
  have hn : (0 : ℝ) < (N : ℝ) := Nat.cast_pos.mpr hN
  have hS : (run_trials_on S0 K r sigma T ((List.range N).map Z)).sum_payoffs =
      ∑ i ∈ Finset.range N, call_payoff K (terminal_price S0 r sigma T (Z i)) := by
    rw [run_trials_closed]
    show (((List.range N).map Z).map
        (fun z => call_payoff K (terminal_price S0 r sigma T z))).sum = _
    rw [List.map_map, sum_map_range]
    rfl
  have hQ : (run_trials_on S0 K r sigma T ((List.range N).map Z)).sum_sq_payoffs =
      ∑ i ∈ Finset.range N,
        call_payoff K (terminal_price S0 r sigma T (Z i)) ^ 2 := by
    rw [run_trials_closed]
    show (((List.range N).map Z).map
        (fun z => call_payoff K (terminal_price S0 r sigma T z) *
          call_payoff K (terminal_price S0 r sigma T z))).sum = _
    rw [List.map_map, sum_map_range]
    exact Finset.sum_congr rfl fun i _ => (pow_two _).symm
  have hCS : (∑ i ∈ Finset.range N,
        call_payoff K (terminal_price S0 r sigma T (Z i))) ^ 2 ≤
      (N : ℝ) * ∑ i ∈ Finset.range N,
        call_payoff K (terminal_price S0 r sigma T (Z i)) ^ 2 := by
    have := sq_sum_le_card_mul_sum_sq (s := Finset.range N)
      (f := fun i => call_payoff K (terminal_price S0 r sigma T (Z i)))
    simpa [Finset.card_range] using this
  have hvar : 0 ≤ (run_trials_on S0 K r sigma T ((List.range N).map Z)).sum_sq_payoffs /
        (N : ℝ) -
      (run_trials_on S0 K r sigma T ((List.range N).map Z)).sum_payoffs /
          (N : ℝ) *
        ((run_trials_on S0 K r sigma T ((List.range N).map Z)).sum_payoffs /
          (N : ℝ)) := by
    rw [hS, hQ, sub_nonneg, div_mul_div_comm, div_le_div_iff₀ (by positivity) hn]
    nlinarith [hCS, hn.le]
  refine ⟨hvar, ?_⟩
  have h2 : (monte_carlo_pricer S0 K r sigma T N Z).std_error =
      Real.sqrt
          ((run_trials_on S0 K r sigma T ((List.range N).map Z)).sum_sq_payoffs /
              (N : ℝ) -
            (run_trials_on S0 K r sigma T ((List.range N).map Z)).sum_payoffs /
                (N : ℝ) *
              ((run_trials_on S0 K r sigma T ((List.range N).map Z)).sum_payoffs /
                (N : ℝ))) /
        Real.sqrt (N : ℝ) * Real.exp (-r * T) := rfl
  rw [h2]
  positivity

/-- Witness for C10 with one trial. -/
theorem plug_in_variance_nonneg_witness :
    0 < 1 ∧
      (0 ≤ (run_trials_on 0 0 0 0 0 ((List.range 1).map (fun _ => (0 : ℝ)))).sum_sq_payoffs /
            ((1 : ℕ) : ℝ) -
          (run_trials_on 0 0 0 0 0 ((List.range 1).map (fun _ => (0 : ℝ)))).sum_payoffs /
              ((1 : ℕ) : ℝ) *
            ((run_trials_on 0 0 0 0 0 ((List.range 1).map (fun _ => (0 : ℝ)))).sum_payoffs /
              ((1 : ℕ) : ℝ)) ∧
        0 ≤ (monte_carlo_pricer 0 0 0 0 0 1 (fun _ => (0 : ℝ))).std_error) :=
  ⟨by decide, plug_in_variance_nonneg 0 0 0 0 0 1 (fun _ => (0 : ℝ)) (by decide)⟩

/-- C8 counterexample: a sample count of three billion does not fit the
engine's `int N` parameter (`INT_MAX = 2^31 − 1 ≈ 2.147·10^9`), so "multiple
billions" of trials are not representable. -/
theorem three_billion_not_representable :
    ¬ sample_count_representable 3000000000 := by
  intro h
  have := h.2
  rw [INT_MAX] at this
  norm_num at this

/-- C8 amended: every positive sample count up to `INT_MAX = 2^31 − 1`
(about 2.147 billion, not "multiple billions") is representable by the
engine's `int` parameter, and a run at such an `N` consumes exactly `N`
draws. -/
theorem sample_count_within_int_range (n : ℤ) (Z : ℕ → ℝ) (h0 : 0 < n)
    (hmax : n ≤ INT_MAX) :
    sample_count_representable n ∧
      ((List.range n.toNat).map Z).length = n.toNat := by
  refine ⟨⟨le_trans (by norm_num) h0.le, hmax⟩, by simp⟩

/-- Witness for C8's amended theorem at `main`'s own `N = 10^9`. -/
theorem sample_count_within_int_range_witness :
    (0 : ℤ) < 1000000000 ∧ (1000000000 : ℤ) ≤ INT_MAX ∧
      (sample_count_representable 1000000000 ∧
        ((List.range (1000000000 : ℤ).toNat).map (fun _ => (0 : ℝ))).length =
          (1000000000 : ℤ).toNat) :=
  ⟨by decide, by decide,
    sample_count_within_int_range 1000000000 (fun _ => (0 : ℝ))
      (by decide) (by decide)⟩

/-- C9 counterexample: each worker samples the clock separately, so a
one-tick skew makes two distinct workers collide on the same seed — worker 1
at clock reading 1000 and worker 0 at clock reading 1001 construct
`std::mt19937` generators from equal seeds and therefore emit identical
(fully overlapping) random sequences within one run. -/
theorem clock_skew_seed_collision :
    worker_seed 1000 1 = worker_seed 1001 0 ∧ (1 : ℕ) ≠ 0 := by
  constructor
  · rfl
  · decide

/-- C9 amended: the per-worker seed is `(clock reading + worker index) mod
2^32`; when all workers of a run happen to read the same clock value,
distinct worker indices (below `2^32`) receive distinct seeds.  Nothing
stronger holds: the code guarantees neither equal clock readings across
workers nor non-overlapping `mt19937` output streams for distinct seeds. -/
theorem distinct_seeds_under_shared_clock (t w1 w2 : ℕ) (h1 : w1 < 2 ^ 32)
    (h2 : w2 < 2 ^ 32) (hne : w1 ≠ w2) :
    worker_seed t w1 ≠ worker_seed t w2 := by
  intro h
  apply hne
  have hmod : (t + w1) % 2 ^ 32 = (t + w2) % 2 ^ 32 := h
  have hcancel : w1 % 2 ^ 32 = w2 % 2 ^ 32 :=
    Nat.ModEq.add_left_cancel' t hmod
  rwa [Nat.mod_eq_of_lt h1, Nat.mod_eq_of_lt h2] at hcancel

/-- Witness for C9's amended theorem: workers 0 and 1 under a shared clock
reading. -/
theorem distinct_seeds_under_shared_clock_witness :
    (0 : ℕ) < 2 ^ 32 ∧ (1 : ℕ) < 2 ^ 32 ∧ (0 : ℕ) ≠ 1 ∧
      worker_seed 5 0 ≠ worker_seed 5 1 :=
  ⟨by norm_num, by norm_num, by decide,
    distinct_seeds_under_shared_clock 5 0 1 (by norm_num) (by norm_num)
      (by decide)⟩
